import Mathlib

/-!
Verification development for the `gradient-rs` repository.

The development shallowly embeds the gradient-stop extractor
(`src/svg_gradient.rs`), the normalizer (`SvgGradient::gradient_builder`),
the compositor helpers (`src/util.rs`, `src/main.rs`) and the CLI color
list splitter (`src/cli.rs`).

Machine floats (`f32` / `f64`) are modelled by `F32`: finite values carry
an exact rational payload (arithmetic is idealized, i.e. rounding is not
modelled), while the IEEE special values NaN and the two infinities are
explicit constructors with their IEEE comparison semantics.  External
collaborators (the `svg` event tokenizer, the CSS color parser and the
`str::parse::<f32>` number parser) are passed in as function parameters.
-/

namespace GradientRs

/-- Idealized model of a Rust `f32`/`f64` value. -/
inductive F32 where
  | fin (q : ℚ)
  | inf
  | ninf
  | nan
  deriving DecidableEq, Repr

namespace F32

/-- `f32::is_finite`. -/
def isFinite : F32 → Bool
  | fin _ => true
  | _ => false

/-- IEEE `<=` on floats: any comparison with NaN is false. -/
def fle : F32 → F32 → Bool
  | nan, _ => false
  | _, nan => false
  | ninf, _ => true
  | _, ninf => false
  | _, inf => true
  | inf, _ => false
  | fin a, fin b => a ≤ b

/-- IEEE `<` on floats: any comparison with NaN is false. -/
def flt : F32 → F32 → Bool
  | nan, _ => false
  | _, nan => false
  | ninf, ninf => false
  | ninf, _ => true
  | _, ninf => false
  | inf, _ => false
  | _, inf => true
  | fin a, fin b => a < b

/-- IEEE `>` on floats. -/
def fgt (a b : F32) : Bool := flt b a

/-- Rust `f32::max`: NaN-ignoring maximum. -/
def fmax : F32 → F32 → F32
  | nan, b => b
  | a, nan => a
  | a, b => if fle a b then b else a

/-- Rust `f32::clamp(lo, hi)` at `lo = 0.0`, `hi = 1.0`:
`if self < min { min } else if self > max { max } else { self }`,
so NaN is returned unchanged. -/
def fclamp01 (x : F32) : F32 :=
  if flt x (fin 0) then fin 0 else if fgt x (fin 1) then fin 1 else x

/-- Division by the literal `100.0` (used for percentage offsets);
`inf/100 = inf`, `(-inf)/100 = -inf`, `NaN/100 = NaN`. -/
def div100 : F32 → F32
  | fin q => fin (q / 100)
  | x => x

/-- IEEE negation. -/
def fneg : F32 → F32
  | fin q => fin (-q)
  | inf => ninf
  | ninf => inf
  | nan => nan

/-- IEEE addition (idealized: no rounding on finite values). -/
def fadd : F32 → F32 → F32
  | fin a, fin b => fin (a + b)
  | fin _, inf => inf
  | fin _, ninf => ninf
  | inf, fin _ => inf
  | ninf, fin _ => ninf
  | inf, inf => inf
  | ninf, ninf => ninf
  | inf, ninf => nan
  | ninf, inf => nan
  | nan, _ => nan
  | _, nan => nan

/-- IEEE multiplication (idealized: no rounding on finite values). -/
def fmul : F32 → F32 → F32
  | fin a, fin b => fin (a * b)
  | fin a, inf => if a = 0 then nan else if 0 < a then inf else ninf
  | fin a, ninf => if a = 0 then nan else if 0 < a then ninf else inf
  | inf, fin b => if b = 0 then nan else if 0 < b then inf else ninf
  | ninf, fin b => if b = 0 then nan else if 0 < b then ninf else inf
  | inf, inf => inf
  | inf, ninf => ninf
  | ninf, inf => ninf
  | ninf, ninf => inf
  | nan, _ => nan
  | _, nan => nan

/-- IEEE subtraction. -/
def fsub (a b : F32) : F32 := fadd a (fneg b)

end F32

/-- Model of the external `colorgrad::Color`: four `f32` channels. -/
structure Color where
  r : F32
  g : F32
  b : F32
  a : F32
  deriving DecidableEq, Repr

/-- `Color::new`. -/
def Color.new (r g b a : F32) : Color := ⟨r, g, b, a⟩

/-- The default stop color `Color::new(0.0, 0.0, 0.0, 1.0)` (opaque black). -/
def blackColor : Color := Color.new (F32.fin 0) (F32.fin 0) (F32.fin 0) (F32.fin 1)

/-- Rust `str::split` on a one-character separator, at the level of
character lists (`"a;;b" ↦ ["a", "", "b"]`, `"" ↦ [""]`). -/
def splitChar (c : Char) : List Char → List (List Char)
  | [] => [[]]
  | x :: xs =>
    match splitChar c xs with
    | [] => [[x]]
    | h :: t => if x = c then [] :: h :: t else (x :: h) :: t

/-- Rust `str::trim` (whitespace on both ends; the ASCII whitespace cases
of Rust's Unicode trimming, which cover every key the parser compares). -/
def trimChars (l : List Char) : List Char :=
  ((l.dropWhile Char.isWhitespace).reverse.dropWhile Char.isWhitespace).reverse

/-- `parse_percent_or_float` from `src/svg_gradient.rs`; the underlying
`str::parse::<f32>` is the external parameter `pf`.  If the string ends in
`%` (Rust `strip_suffix`) the prefix must parse and is divided by 100,
otherwise the whole string must parse. -/
def parse_percent_or_float (pf : String → Option F32) (s : String) : Option F32 :=
  if s.data.getLast? = some '%' then
    match pf (String.mk s.data.dropLast) with
    | some t => some t.div100
    | none => none
  else
    pf s

/-- `parse_styles` from `src/svg_gradient.rs`: split the `style` attribute
on `;`, split each entry on `:`, keep entries with exactly two fields and
record the last `stop-color` / `stop-opacity` value (keys matched
case-insensitively after trimming). -/
def parse_styles (s : String) : Option String × Option String :=
  (splitChar ';' s.data).foldl
    (fun val x =>
      match splitChar ':' x with
      | [k, v] =>
        if (trimChars k).map Char.toLower = "stop-color".data then (some (String.mk v), val.2)
        else if (trimChars k).map Char.toLower = "stop-opacity".data then (val.1, some (String.mk v))
        else val
      | _ => val)
    (none, none)

/-- The attributes of a `<stop>` element that `parse_svg` reads. -/
structure StopAttrs where
  stop_color : Option String := none
  stop_opacity : Option String := none
  style : Option String := none
  offset : Option String := none
  deriving DecidableEq, Repr

/-- Apply an optional fallible parser to an optional attribute:
`none` result means the attribute was present but failed to parse
(which poisons the record), `some v` carries the resolved optional value. -/
def liftParse (p : String → Option α) : Option String → Option (Option α)
  | none => some none
  | some s =>
    match p s with
    | none => none
    | some v => some (some v)

/-- The `style` attribute handling inside the `<stop>` branch of
`parse_svg`: a `stop-color` entry in the style list overwrites the color
resolved so far, a `stop-opacity` entry overwrites the opacity; a present
but unparsable entry poisons the record (`none`). -/
def styleApply (pc : String → Option Color) (pf : String → Option F32) (st : String)
    (color : Option Color) (opacity : Option F32) : Option (Option Color × Option F32) :=
  let co := parse_styles st
  let colorRes : Option (Option Color) :=
    match co.1 with
    | none => some color
    | some s =>
      match pc s with
      | none => none
      | some c => some (some c)
  match colorRes with
  | none => none
  | some color2 =>
    match co.2 with
    | none => some (color2, opacity)
    | some s =>
      match parse_percent_or_float pf s with
      | none => none
      | some o => some (color2, some o)

/-- Resolution of one `<stop>` element (the `Event::Tag(svg_tag::Stop, ..)`
branch of `parse_svg`, lines 109-172 of `src/svg_gradient.rs`).
`none` means some present attribute failed to parse: the record is marked
invalid and nothing is pushed (the Rust code `continue`s).  `some (c, p)`
is the color and effective position pushed, `p` also becoming the new
running maximum `prev_pos`. -/
def stopResult (pc : String → Option Color) (pf : String → Option F32)
    (attrs : StopAttrs) (prev : F32) : Option (Color × F32) :=
  (liftParse pc attrs.stop_color).bind fun color =>
  (liftParse (parse_percent_or_float pf) attrs.stop_opacity).bind fun opacity =>
  (match attrs.style with
   | none => some (color, opacity)
   | some st => styleApply pc pf st color opacity).bind fun co =>
  (liftParse (parse_percent_or_float pf) attrs.offset).bind fun off =>
  let color := co.1.getD blackColor
  let offset := off.getD prev
  let color :=
    match co.2 with
    | some o => Color.new color.r color.g color.b (F32.fclamp01 o)
    | none => color
  let newPrev := if offset.isFinite then F32.fmax offset prev else F32.fin 0
  some (color, newPrev)

/-- One gradient record (`pub struct SvgGradient`). -/
structure SvgGradient where
  id : Option String
  colors : List Color
  pos : List F32
  valid : Bool
  deriving DecidableEq, Repr

/-- `svg_tag::Type`. -/
inductive TagType where
  | tStart
  | tEnd
  | tEmpty
  deriving DecidableEq, Repr

/-- One event of the external `svg::read` tokenizer, restricted to what
`parse_svg` matches on: `linearGradient`/`radialGradient` tags (both
handled identically, carrying their `id` attribute), `stop` tags carrying
the four attributes read by the code, and anything else. -/
inductive Event where
  | gradient (t : TagType) (id : Option String)
  | stop (attrs : StopAttrs)
  | other
  deriving DecidableEq, Repr

/-- The mutable locals of `parse_svg`. -/
structure ParseState where
  res : List SvgGradient
  index : Nat
  prev_pos : F32
  inside : Bool
  skip : Bool
  deriving DecidableEq, Repr

/-- Initial state of `parse_svg`. -/
def initState : ParseState := ⟨[], 0, F32.ninf, false, false⟩

/-- Update the element at index `i` (identity when out of range; the Rust
code would panic on an out-of-range `res[index]`, which the flat-stream
hypotheses of the theorems below rule out). -/
def updateAt (i : Nat) (f : α → α) (l : List α) : List α :=
  match l[i]? with
  | some x => l.set i (f x)
  | none => l

/-- One iteration of the event loop of `parse_svg`. -/
def parseStep (pc : String → Option Color) (pf : String → Option F32)
    (target_id : Option String) (st : ParseState) (e : Event) : ParseState :=
  match e with
  | .gradient .tStart id =>
    let skip : Bool :=
      match id, target_id with
      | some a, some b => a ≠ b
      | none, some _ => true
      | _, _ => false
    if skip then { st with skip := true }
    else
      { st with skip := false, inside := true,
                res := st.res ++ [⟨id, [], [], true⟩] }
  | .gradient .tEnd _ =>
    { st with index := if st.inside && !st.skip then st.index + 1 else st.index,
              inside := false, prev_pos := F32.ninf }
  | .gradient .tEmpty _ => st
  | .stop attrs =>
    if !st.inside || st.skip || st.res.isEmpty then st
    else
      match stopResult pc pf attrs st.prev_pos with
      | none => { st with res := updateAt st.index (fun g => { g with valid := false }) st.res }
      | some (c, p) =>
        { st with prev_pos := p,
                  res := updateAt st.index
                    (fun g => { g with colors := g.colors ++ [c], pos := g.pos ++ [p] }) st.res }
  | .other => st

/-- `parse_svg` from `src/svg_gradient.rs`: fold the event stream through
`parseStep` and return the accumulated records in document order. -/
def parse_svg (pc : String → Option Color) (pf : String → Option F32)
    (s : List Event) (target_id : Option String) : List SvgGradient :=
  (s.foldl (parseStep pc pf target_id) initState).res

/-- Number of stop-defining events in a stream. -/
def countStops (es : List Event) : Nat :=
  (es.filter fun e => match e with | .stop _ => true | _ => false).length

/-- `SvgGradient::gradient_builder`: `none` models both the `None` returns
of the Rust code and the panics that out-of-range indexing would raise on
records violating the `colors.len() == pos.len()` invariant.  On success
it returns the (possibly boundary-padded) color and position lists handed
to the external `GradientBuilder`. -/
def gradient_builder (g : SvgGradient) : Option (List Color × List F32) :=
  if !g.valid || g.colors.isEmpty then none
  else
    match g.colors, g.pos with
    | c0 :: ctl, p0 :: ptl =>
      let cp :=
        if F32.fgt p0 (F32.fin 0) then (c0 :: c0 :: ctl, F32.fin 0 :: p0 :: ptl)
        else (c0 :: ctl, p0 :: ptl)
      let last := cp.1.length - 1
      match cp.2[last]?, cp.1.getLast? with
      | some pl, some cl =>
        if F32.flt pl (F32.fin 1) then some (cp.1 ++ [cl], cp.2 ++ [F32.fin 1])
        else some (cp.1, cp.2)
      | _, _ => none
    | _, _ => none

/-! ### Compositor helpers (`src/util.rs`, `src/main.rs`) -/

/-- `blend_color` from `src/util.rs` (the same formula as `blend` in
`src/main.rs`): source-over compositing of `fg` onto `bg`, with the
result alpha forced to `1.0`. -/
def blend_color (fg bg : Color) : Color :=
  Color.new
    (F32.fadd (F32.fmul (F32.fsub (F32.fin 1) fg.a) bg.r) (F32.fmul fg.a fg.r))
    (F32.fadd (F32.fmul (F32.fsub (F32.fin 1) fg.a) bg.g) (F32.fmul fg.a fg.g))
    (F32.fadd (F32.fmul (F32.fsub (F32.fin 1) fg.a) bg.b) (F32.fmul fg.a fg.b))
    (F32.fin 1)

/-- The `lum` helper inside `color_luminance` (`src/main.rs`): WCAG 2.0
piecewise gamma linearization of one channel. -/
noncomputable def lum (t : ℝ) : ℝ :=
  if t ≤ 0.03928 then t / 12.92 else ((t + 0.055) / 1.055) ^ (2.4 : ℝ)

/-- `color_luminance` from `src/main.rs`, as a function of the three
(exactly-represented) rgb channels of the color. -/
noncomputable def color_luminance (r g b : ℚ) : ℝ :=
  0.2126 * lum r + 0.7152 * lum g + 0.0722 * lum b

/-- The foreground chosen by `GradientApp::display_colors` for the overlay
text over a swatch of the given (composited) background color:
white when the luminance is below `0.3`, black otherwise. -/
noncomputable def swatch_fg (r g b : ℚ) : ℕ × ℕ × ℕ :=
  if color_luminance r g b < 0.3 then (255, 255, 255) else (0, 0, 0)

/-! ### CLI color-list splitter (`src/cli.rs`)

Rust strings are UTF-8 byte sequences; slicing panics when an index is
not a character boundary.  The model works on the character list and
tracks byte offsets explicitly: `dropBytes`/`takeBytes` return `none`
when an offset falls inside a multi-byte character. -/

/-- Drop the first `n` bytes; `none` if `n` is not a char boundary or
past the end. -/
def dropBytes : List Char → Nat → Option (List Char)
  | l, 0 => some l
  | [], _ + 1 => none
  | c :: cs, n + 1 =>
    if n + 1 < c.utf8Size then none else dropBytes cs (n + 1 - c.utf8Size)

/-- Take the first `n` bytes; `none` if `n` is not a char boundary or
past the end. -/
def takeBytes : List Char → Nat → Option (List Char)
  | _, 0 => some []
  | [], _ + 1 => none
  | c :: cs, n + 1 =>
    if n + 1 < c.utf8Size then none
    else (takeBytes cs (n + 1 - c.utf8Size)).map (c :: ·)

/-- Rust `&s[start..stop]`: `none` models the slicing panic (out of
range, reversed range, or an index inside a multi-byte character). -/
def byteSlice (l : List Char) (start stop : Nat) : Option (List Char) :=
  if stop < start then none
  else
    match dropBytes l start with
    | none => none
    | some l2 => takeBytes l2 (stop - start)

/-- Total byte length of a character list (Rust `str::len`). -/
def utf8Len (l : List Char) : Nat := (l.map Char.utf8Size).sum

/-- Outcome of `parse_colors`: `ok`/`err` are the `Result` values, `crash`
models a slicing panic. -/
inductive PResult where
  | ok (cs : List Color)
  | err
  | crash
  deriving DecidableEq, Repr

/-- The loop of `parse_colors` (`src/cli.rs`).  `i` is the CHARACTER index
produced by `chars().enumerate()`, which the Rust code then uses as a BYTE
index into `s` — the model reproduces this faithfully via `byteSlice`. -/
def parse_colors_go (pc : String → Option Color) (full : List Char) :
    List Char → Nat → Nat → Bool → List Color → PResult
  | [], _, start, _, acc =>
    match byteSlice full start (utf8Len full) with
    | none => .crash
    | some sub =>
      match pc (String.mk sub) with
      | none => .err
      | some c => .ok (acc ++ [c])
  | c :: rest, i, start, inside, acc =>
    if c = ',' && !inside then
      match byteSlice full start i with
      | none => .crash
      | some sub =>
        match pc (String.mk sub) with
        | none => .err
        | some col => parse_colors_go pc full rest (i + 1) (i + 1) inside (acc ++ [col])
    else if c = '(' then parse_colors_go pc full rest (i + 1) start true acc
    else if c = ')' then parse_colors_go pc full rest (i + 1) start false acc
    else parse_colors_go pc full rest (i + 1) start inside acc

/-- `parse_colors` from `src/cli.rs`: split a color list on commas that
are outside parentheses; the external CSS color parser is `pc`. -/
def parse_colors (pc : String → Option Color) (s : String) : PResult :=
  parse_colors_go pc s.data s.data 0 0 false []

/-! ### Hypotheses used by the stream theorems -/

/-- All values produced by the external float parser are finite
(no `"NaN"`, `"inf"`, overflow, ... tokens in the document). -/
def offsetsFinite (pf : String → Option F32) : Prop :=
  ∀ s v, pf s = some v → v.isFinite = true

/-- Structural well-formedness of an event stream: gradient-opening tags
never occur while a gradient element is already open (SVG documents do
not nest gradient containers).  The flag tracks "inside a container". -/
def flatEvents : Bool → List Event → Bool
  | _, [] => true
  | i, .gradient .tStart _ :: es => !i && flatEvents true es
  | _, .gradient .tEnd _ :: es => flatEvents false es
  | i, .gradient .tEmpty _ :: es => flatEvents i es
  | i, .stop _ :: es => flatEvents i es
  | i, .other :: es => flatEvents i es

/-- Non-decreasing emitted positions of one record. -/
def monotonePos (g : SvgGradient) : Prop :=
  List.Chain' (fun a b => F32.fle a b = true) g.pos

/-- The running maximum `prev_pos` agrees with the last position pushed
into the active record (or the record is still empty and `prev_pos` is
still negative infinity). -/
def prevTracks (st : ParseState) : Prop :=
  ∃ g, st.res[st.index]? = some g ∧
    ((g.pos = [] ∧ st.prev_pos = F32.ninf) ∨
     (∃ q, st.prev_pos = F32.fin q ∧ g.pos.getLast? = some (F32.fin q)))

/-- Induction invariant for the `parse_svg` event loop, parameterized by
the well-formedness flag `ic` of the remaining stream. -/
def stInv (st : ParseState) (ic : Bool) : Prop :=
  (∀ g ∈ st.res, monotonePos g) ∧
  (st.inside = true → ic = true ∧ st.skip = false ∧
     st.index + 1 = st.res.length ∧ prevTracks st) ∧
  (st.inside = false → st.prev_pos = F32.ninf ∧ st.index = st.res.length) ∧
  (st.prev_pos = F32.ninf ∨ ∃ q, st.prev_pos = F32.fin q)

/-! ### Concrete external parsers used in tests and witnesses -/

/-- Model of `"gold"` (`#ffd700`) as parsed by the external color crate. -/
def goldColor : Color :=
  Color.new (F32.fin 1) (F32.fin (mkRat 43 51)) (F32.fin 0) (F32.fin 1)

/-- Model of `"steelblue"` (`#4682b4`). -/
def steelblueColor : Color :=
  Color.new (F32.fin (mkRat 14 51)) (F32.fin (mkRat 26 51)) (F32.fin (mkRat 12 17)) (F32.fin 1)

/-- Model of `"red"` (`#ff0000`). -/
def redColor : Color := Color.new (F32.fin 1) (F32.fin 0) (F32.fin 0) (F32.fin 1)

/-- Model of `"lime"` (`#00ff00`). -/
def limeColor : Color := Color.new (F32.fin 0) (F32.fin 1) (F32.fin 0) (F32.fin 1)

/-- A concrete external CSS color parser covering the tokens used in the
tests; `"bad"` is an unparsable token. -/
def pcFix : String → Option Color := fun s =>
  if s = "gold" then some goldColor
  else if s = "steelblue" then some steelblueColor
  else if s = "red" then some redColor
  else if s = "lime" then some limeColor
  else none

/-- A concrete external `f32` parser covering the numeric tokens used in
the tests, including the non-finite token `"nan"`. -/
def pfFix : String → Option F32 := fun s =>
  if s = "0" then some (F32.fin 0)
  else if s = "0.5" then some (F32.fin (mkRat 1 2))
  else if s = "0.7" then some (F32.fin (mkRat 7 10))
  else if s = "2" then some (F32.fin 2)
  else if s = "nan" then some F32.nan
  else none

/-- A concrete external `f32` parser producing only finite values. -/
def pfFin : String → Option F32 := fun s =>
  if s = "0" then some (F32.fin 0)
  else if s = "0.7" then some (F32.fin (mkRat 7 10))
  else none

/-! ### Helper lemmas about the float model -/

theorem fle_fin_fmax (a q : ℚ) :
    F32.fle (F32.fin q) (F32.fmax (F32.fin a) (F32.fin q)) = true := by
  by_cases h : a ≤ q
  · simp [F32.fmax, F32.fle, h]
  · simp [F32.fmax, F32.fle, h, le_of_not_le h]

theorem fmax_fin_fin (a q : ℚ) :
    ∃ c, F32.fmax (F32.fin a) (F32.fin q) = F32.fin c := by
  by_cases h : a ≤ q
  · exact ⟨q, by simp [F32.fmax, F32.fle, h]⟩
  · exact ⟨a, by simp [F32.fmax, F32.fle, h]⟩

theorem fmax_fin_ninf (a : ℚ) :
    F32.fmax (F32.fin a) F32.ninf = F32.fin a := by
  simp [F32.fmax, F32.fle]

theorem fmax_fin_self (q : ℚ) :
    F32.fmax (F32.fin q) (F32.fin q) = F32.fin q := by
  simp [F32.fmax, F32.fle]

theorem div100_finite {t : F32} (h : t.isFinite = true) :
    (t.div100).isFinite = true := by
  cases t <;> simp_all [F32.isFinite, F32.div100]

theorem eq_fin_zero_of_fle_of_not_fgt {p : F32}
    (h1 : F32.fle (F32.fin 0) p = true) (h2 : F32.fgt p (F32.fin 0) = false) :
    p = F32.fin 0 := by
  cases p with
  | fin q =>
    simp only [F32.fle, F32.fgt, F32.flt, decide_eq_true_eq, decide_eq_false_iff_not] at h1 h2
    exact congrArg F32.fin (le_antisymm (not_lt.mp h2) h1)
  | inf => simp [F32.fgt, F32.flt] at h2
  | ninf => simp [F32.fle] at h1
  | nan => simp [F32.fle] at h1

theorem eq_fin_one_of_fle_of_not_flt {p : F32}
    (h1 : F32.fle p (F32.fin 1) = true) (h2 : F32.flt p (F32.fin 1) = false) :
    p = F32.fin 1 := by
  cases p with
  | fin q =>
    simp only [F32.fle, F32.flt, decide_eq_true_eq, decide_eq_false_iff_not] at h1 h2
    exact congrArg F32.fin (le_antisymm h1 (not_lt.mp h2))
  | inf => simp [F32.fle] at h1
  | ninf => simp [F32.flt] at h2
  | nan => simp [F32.fle] at h1

theorem parse_percent_or_float_finite {pf : String → Option F32}
    (hpf : offsetsFinite pf) {s : String} {v : F32}
    (h : parse_percent_or_float pf s = some v) : v.isFinite = true := by
  unfold parse_percent_or_float at h
  split at h
  · cases hp : pf (String.mk s.data.dropLast) with
    | none => rw [hp] at h; cases h
    | some t =>
      rw [hp] at h
      cases h
      exact div100_finite (hpf _ _ hp)
  · exact hpf _ _ h

/-! ### C8: source-over compositing -/

/-- C8: `blend_color` computes the standard source-over composite
`(1 - fg.a) * bg.channel + fg.a * fg.channel` on every channel, and the
result alpha is always exactly `1.0`.  (As a Lean function it is pure by
construction: equal arguments give equal results, and arguments are
unchanged.) -/
theorem c8_blend_source_over :
    (∀ fr fg fb fa br bg bb ba : ℚ,
      blend_color ⟨F32.fin fr, F32.fin fg, F32.fin fb, F32.fin fa⟩
          ⟨F32.fin br, F32.fin bg, F32.fin bb, F32.fin ba⟩ =
        ⟨F32.fin ((1 - fa) * br + fa * fr), F32.fin ((1 - fa) * bg + fa * fg),
         F32.fin ((1 - fa) * bb + fa * fb), F32.fin 1⟩) ∧
    (∀ fg bg : Color, (blend_color fg bg).a = F32.fin 1) := by
  constructor
  · intro fr fg fb fa br bg bb ba
    simp [blend_color, Color.new, F32.fsub, F32.fneg, F32.fadd, F32.fmul, sub_eq_add_neg]
  · intro fg bg
    rfl

/-! ### C5: luminance of pure red and the swatch foreground -/

theorem lum_one : lum 1 = 1 := by
  have h : ((1 : ℝ) + 0.055) / 1.055 = 1 := by norm_num
  rw [lum, if_neg (by norm_num), h, Real.one_rpow]

theorem lum_zero : lum 0 = 0 := by
  rw [lum, if_pos (by norm_num)]
  norm_num

theorem color_luminance_red : color_luminance 1 0 0 = 0.2126 := by
  unfold color_luminance
  push_cast
  rw [lum_one, lum_zero]
  norm_num

/-- C5 counterexample: the claim asserts that pure red's relative
luminance (0.2126) is at least 0.3 and that the chosen foreground is
black; in fact 0.2126 < 0.3 and the code chooses white. -/
theorem c5_counterexample :
    ¬ ((0.3 : ℝ) ≤ color_luminance 1 0 0 ∧ swatch_fg 1 0 0 = (0, 0, 0)) := by
  rintro ⟨h1, -⟩
  rw [color_luminance_red] at h1
  norm_num at h1

/-- C5 (amended): pure red `rgb(255,0,0)` has relative luminance exactly
0.2126 under the code's piecewise linearization, which is BELOW the 0.3
threshold, so the foreground chosen for overlay text is white, not
black. -/
theorem c5_red_luminance_below_threshold :
    color_luminance 1 0 0 = 0.2126 ∧
    color_luminance 1 0 0 < 0.3 ∧
    swatch_fg 1 0 0 = (255, 255, 255) := by
  refine ⟨color_luminance_red, ?_, ?_⟩
  · rw [color_luminance_red]; norm_num
  · rw [swatch_fg, if_pos]
    rw [color_luminance_red]; norm_num

/-! ### C6: boundary padding idempotence -/

/-- C6: normalizing a valid, non-empty stop list that already starts at
position 0.0 and ends at 1.0 returns the color and position lists
unchanged — no boundary stop is duplicated. -/
theorem c6_normalize_idempotent (g : SvgGradient)
    (hv : g.valid = true) (hlen : g.pos.length = g.colors.length)
    (hhead : g.pos.head? = some (F32.fin 0))
    (hlast : g.pos.getLast? = some (F32.fin 1)) :
    gradient_builder g = some (g.colors, g.pos) := by
  obtain ⟨id, colors, pos, valid⟩ := g
  simp only at hv hlen hhead hlast
  subst hv
  cases pos with
  | nil => cases hhead
  | cons p0 ptl =>
    cases colors with
    | nil => simp at hlen
    | cons c0 ctl =>
      have hp0 : p0 = F32.fin 0 := by
        simpa using hhead
      subst hp0
      have hlen' : ptl.length = ctl.length := by
        simpa using hlen
      have hfgt : F32.fgt (F32.fin 0) (F32.fin 0) = false := by decide
      have hflt : F32.flt (F32.fin 1) (F32.fin 1) = false := by decide
      have hgetlast :
          (F32.fin 0 :: ptl)[(c0 :: ctl).length - 1]? = some (F32.fin 1) := by
        have hl : (c0 :: ctl).length = (F32.fin 0 :: ptl).length := by
          simp [hlen']
        rw [hl, ← List.getLast?_eq_getElem?]
        exact hlast
      simp only [gradient_builder, Bool.not_true, Bool.false_or, List.isEmpty_cons,
        Bool.or_self, if_neg, hfgt, if_false, Bool.false_eq_true, ite_false]
      rw [List.getLast?_eq_getElem?] at hlast
      simp only [List.length_cons] at hlast hgetlast
      have : (F32.fin 0 :: ptl)[ctl.length + 1 - 1]? = some (F32.fin 1) := by
        simpa [hlen'] using hlast
      simp only [List.length_cons, this]
      cases hcl : (c0 :: ctl).getLast? with
      | none => simp [List.getLast?_eq_getElem?] at hcl
      | some cl => simp [hflt]

/-- C6 witness at a concrete already-normalized record. -/
theorem c6_witness :
    gradient_builder ⟨none, [blackColor, goldColor], [F32.fin 0, F32.fin 1], true⟩ =
      some ([blackColor, goldColor], [F32.fin 0, F32.fin 1]) :=
  c6_normalize_idempotent ⟨none, [blackColor, goldColor], [F32.fin 0, F32.fin 1], true⟩
    (by decide) (by decide) (by decide) (by decide)

/-! ### C7: defaulting of missing stop attributes -/

/-- C7: a stop with no color attribute defaults to opaque black and a
stop with no offset attribute reuses the previous stop's effective offset
(0 when there is none); the concrete sequence
`[offset=0, offset=0.7 color=gold, color=steelblue]` extracts to exactly
`[(0,black),(0.7,gold),(0.7,steelblue)]`. -/
theorem c7_missing_attribute_defaults :
    parse_svg pcFix pfFix
      [ .gradient .tStart (some "g4657"),
        .stop { offset := some "0" },
        .stop { offset := some "0.7", stop_color := some "gold" },
        .stop { stop_color := some "steelblue" },
        .gradient .tEnd none ] none =
      [⟨some "g4657", [blackColor, goldColor, steelblueColor],
        [F32.fin 0, F32.fin (mkRat 7 10), F32.fin (mkRat 7 10)], true⟩] ∧
    (∀ (pc : String → Option Color) (pf : String → Option F32) (q : ℚ),
      stopResult pc pf {} (F32.fin q) = some (blackColor, F32.fin q)) ∧
    (∀ (pc : String → Option Color) (pf : String → Option F32),
      stopResult pc pf {} F32.ninf = some (blackColor, F32.fin 0)) := by
  refine ⟨by decide, fun pc pf q => ?_, fun pc pf => rfl⟩
  simp [stopResult, liftParse, F32.isFinite, fmax_fin_self, blackColor, Color.new]

/-! ### Counterexamples for the claims the code violates -/

/-- C1 counterexample: with offsets `"2"` then `"nan"` the extractor
emits positions `[2, 0]` for one record — a non-finite offset resets the
emitted position to 0, below the running maximum, so the sequence is not
non-decreasing. -/
theorem c1_counterexample :
    parse_svg pcFix pfFix
      [ .gradient .tStart none, .stop { offset := some "2" },
        .stop { offset := some "nan" }, .gradient .tEnd none ] none =
      [⟨none, [blackColor, blackColor], [F32.fin 2, F32.fin 0], true⟩] ∧
    ¬ monotonePos ⟨none, [blackColor, blackColor], [F32.fin 2, F32.fin 0], true⟩ := by
  constructor
  · decide
  · intro h
    have := List.chain'_cons.mp h
    simp only [F32.fle, decide_eq_true_eq] at this
    exact absurd this.1 (by norm_num)

/-- C2 counterexample: a valid single-stop record at position 2 is
normalized to positions `[0, 2]` — the last position is not 1.0. -/
theorem c2_counterexample :
    parse_svg pcFix pfFix
      [ .gradient .tStart (some "g"), .stop { offset := some "2" },
        .gradient .tEnd none ] none =
      [⟨some "g", [blackColor], [F32.fin 2], true⟩] ∧
    gradient_builder ⟨some "g", [blackColor], [F32.fin 2], true⟩ =
      some ([blackColor, blackColor], [F32.fin 0, F32.fin 2]) ∧
    ([F32.fin 0, F32.fin 2].getLast? = some (F32.fin 2) ∧ F32.fin 2 ≠ F32.fin 1) := by
  decide

/-- C3 counterexample: a stop carrying BOTH `stop-color="red"` and
`style="stop-color:lime"` resolves to lime — the style entry overrides
the explicit attribute, the opposite of the claimed priority. -/
theorem c3_counterexample :
    parse_svg pcFix pfFix
      [ .gradient .tStart none,
        .stop { stop_color := some "red", style := some "stop-color:lime" },
        .gradient .tEnd none ] none =
      [⟨none, [limeColor], [F32.fin 0], true⟩] ∧
    limeColor ≠ redColor := by
  decide

/-- C4 counterexample: two stop events, the first with an unparsable
color token — the record is marked invalid and stores only ONE stop, not
two: the failing stop does not occupy a slot. -/
theorem c4_counterexample :
    parse_svg pcFix pfFix
      [ .gradient .tStart none, .stop { stop_color := some "bad" },
        .stop {}, .gradient .tEnd none ] none =
      [⟨none, [blackColor], [F32.fin 0], false⟩] ∧
    countStops
      [ .gradient .tStart none, .stop { stop_color := some "bad" },
        .stop {}, .gradient .tEnd none ] = 2 ∧
    ([blackColor] : List Color).length ≠ 2 := by
  decide

/-- C10 counterexample: on the non-ASCII input `"é,x"` the splitter
slices at byte index 1, inside the two-byte character `é` — the Rust code
panics (`crash` in the model) instead of returning `Ok`/`Err`. -/
theorem c10_counterexample :
    parse_colors (fun _ => none) (String.mk [Char.ofNat 0xE9, ',', 'x']) =
      PResult.crash := by
  decide

/-! ### Machinery: `updateAt`, `stopResult` and the event-loop invariant -/

theorem updateAt_length (i : Nat) (f : α → α) (l : List α) :
    (updateAt i f l).length = l.length := by
  unfold updateAt
  cases h : l[i]? <;> simp

theorem getElem?_updateAt_self (i : Nat) (f : α → α) (l : List α) :
    (updateAt i f l)[i]? = (l[i]?).map f := by
  unfold updateAt
  cases h : l[i]? with
  | none => simp [h]
  | some a =>
    have hlt : i < l.length := by
      by_contra hge
      rw [List.getElem?_eq_none (le_of_not_lt hge)] at h
      cases h
    simp [List.getElem?_set_self hlt, h]

theorem forall_mem_updateAt {P : α → Prop} {l : List α} {i : Nat} {f : α → α}
    (hl : ∀ g ∈ l, P g) (hf : ∀ g, l[i]? = some g → P (f g)) :
    ∀ g ∈ updateAt i f l, P g := by
  unfold updateAt
  cases h : l[i]? with
  | none => exact hl
  | some a =>
    intro g hg
    rcases List.mem_or_eq_of_mem_set hg with h' | rfl
    · exact hl g h'
    · exact hf a h

theorem liftParse_some {p : String → Option α} {o : Option String} {v : α}
    (h : liftParse p o = some (some v)) : ∃ s, o = some s ∧ p s = some v := by
  cases o with
  | none => simp [liftParse] at h
  | some s =>
    refine ⟨s, rfl, ?_⟩
    simp only [liftParse] at h
    cases hp : p s with
    | none => rw [hp] at h; simp at h
    | some w =>
      rw [hp] at h
      simp only [Option.some.injEq] at h
      rw [h]

/-- The position pushed by a successful stop is always finite, and it is
at least the previous running maximum whenever that maximum is finite. -/
theorem stopResult_pos {pc : String → Option Color} {pf : String → Option F32}
    {attrs : StopAttrs} {prev : F32} {c : Color} {p : F32}
    (hpf : offsetsFinite pf)
    (hprev : prev = F32.ninf ∨ ∃ b, prev = F32.fin b)
    (h : stopResult pc pf attrs prev = some (c, p)) :
    (∃ q, p = F32.fin q) ∧ (∀ b, prev = F32.fin b → F32.fle (F32.fin b) p = true) := by
  simp only [stopResult, Option.bind_eq_some] at h
  obtain ⟨color, -, opacity, -, co, -, off, hoff, hfin⟩ := h
  simp only [Option.some.injEq, Prod.mk.injEq] at hfin
  obtain ⟨-, hp⟩ := hfin
  cases off with
  | none =>
    simp only [Option.getD_none] at hp
    rcases hprev with rfl | ⟨b, rfl⟩
    · exact ⟨⟨0, hp.symm⟩, fun b hb => by cases hb⟩
    · rw [show (F32.fin b).isFinite = true from rfl, if_pos rfl, fmax_fin_self] at hp
      refine ⟨⟨b, hp.symm⟩, fun b' hb' => ?_⟩
      cases hb'
      rw [← hp]
      simp [F32.fle]
  | some v =>
    obtain ⟨s, -, hparse⟩ := liftParse_some hoff
    obtain ⟨a, rfl⟩ : ∃ a, v = F32.fin a := by
      have hfin := parse_percent_or_float_finite hpf hparse
      cases v <;> simp_all [F32.isFinite]
    simp only [Option.getD_some] at hp
    rw [show (F32.fin a).isFinite = true from rfl, if_pos rfl] at hp
    constructor
    · rcases hprev with rfl | ⟨b, rfl⟩
      · exact ⟨a, by rw [← hp, fmax_fin_ninf]⟩
      · obtain ⟨cq, hc⟩ := fmax_fin_fin a b
        exact ⟨cq, by rw [← hp, hc]⟩
    · intro b hb
      cases hb
      rw [← hp]
      exact fle_fin_fmax a b

theorem initState_inv : stInv initState false := by
  refine ⟨?_, ?_, ?_, Or.inl rfl⟩
  · intro g hg
    cases hg
  · intro h
    cases h
  · intro _
    exact ⟨rfl, rfl⟩

/-- One step of the event loop preserves the invariant, consuming one
step of the stream well-formedness checker. -/
theorem parseStep_inv {pc : String → Option Color} {pf : String → Option F32}
    {target : Option String} (hpf : offsetsFinite pf) {st : ParseState}
    {ic : Bool} {e : Event} {es : List Event}
    (hflat : flatEvents ic (e :: es) = true) (hinv : stInv st ic) :
    ∃ ic', flatEvents ic' es = true ∧
      stInv (parseStep pc pf target st e) ic' := by
  obtain ⟨res, index, prev, inside, skip⟩ := st
  obtain ⟨hmono, hin, hout, hprev⟩ := hinv
  simp only at hmono hin hout hprev
  cases e with
  | other => exact ⟨ic, hflat, hmono, hin, hout, hprev⟩
  | gradient t id =>
    cases t with
    | tEmpty => exact ⟨ic, hflat, hmono, hin, hout, hprev⟩
    | tStart =>
      have hflat' : ic = false ∧ flatEvents true es = true := by
        have : (!ic && flatEvents true es) = true := hflat
        simp only [Bool.and_eq_true, Bool.not_eq_true'] at this
        exact this
      have hinside : inside = false := by
        cases hi : inside
        · rfl
        · exact absurd (hin hi).1 (by simp [hflat'.1])
      subst hinside
      obtain ⟨hpninf, hidx⟩ := hout rfl
      subst hpninf
      refine ⟨true, hflat'.2, ?_⟩
      simp only [parseStep]
      split
      · exact ⟨hmono, fun h => Bool.noConfusion h, fun _ => ⟨rfl, hidx⟩, Or.inl rfl⟩
      · refine ⟨?_, ?_, ?_, Or.inl rfl⟩
        · intro g hg
          rcases List.mem_append.mp hg with h' | h'
          · exact hmono g h'
          · rw [List.mem_singleton] at h'
            subst h'
            exact List.chain'_nil
        · intro _
          refine ⟨rfl, rfl, by simp [hidx], ?_⟩
          refine ⟨⟨id, [], [], true⟩, ?_, Or.inl ⟨rfl, rfl⟩⟩
          simp only [hidx]
          exact List.getElem?_concat_length res ⟨id, [], [], true⟩
        · intro h
          cases h
    | tEnd =>
      have hflat' : flatEvents false es = true := hflat
      refine ⟨false, hflat', ?_⟩
      simp only [parseStep]
      refine ⟨hmono, fun h => Bool.noConfusion h, fun _ => ⟨rfl, ?_⟩, Or.inl rfl⟩
      cases hi : inside with
      | false =>
        obtain ⟨-, hidx⟩ := hout hi
        simp [hi, hidx]
      | true =>
        obtain ⟨-, hskip, hlen1, -⟩ := hin hi
        simp [hi, hskip, hlen1]
  | stop attrs =>
    have hflat' : flatEvents ic es = true := hflat
    refine ⟨ic, hflat', ?_⟩
    simp only [parseStep]
    split
    · exact ⟨hmono, hin, hout, hprev⟩
    · rename_i hguard
      have hguard' : inside = true ∧ skip = false ∧ res.isEmpty = false := by
        simp only [Bool.or_eq_true, Bool.not_eq_true'] at hguard
        push_neg at hguard
        obtain ⟨⟨h1, h2⟩, h3⟩ := hguard
        refine ⟨?_, ?_, ?_⟩
        · cases hi : inside
          · exact absurd hi h1
          · rfl
        · cases hs : skip
          · rfl
          · exact absurd hs h2
        · cases he : res.isEmpty
          · rfl
          · exact absurd he h3
      obtain ⟨hinside, hskip, -⟩ := hguard'
      obtain ⟨hic, -, hlen1, hpt⟩ := hin hinside
      split
      · rename_i heq
        refine ⟨?_, ?_, ?_, hprev⟩
        · exact forall_mem_updateAt hmono
            (fun g hg => hmono g (List.getElem?_mem hg))
        · intro _
          refine ⟨hic, hskip, by simp [updateAt_length, hlen1], ?_⟩
          obtain ⟨g0, hg0, hdisj⟩ := hpt
          refine ⟨{ g0 with valid := false }, ?_, hdisj⟩
          rw [getElem?_updateAt_self, hg0]
          rfl
        · intro h
          rw [hinside] at h
          cases h
      · rename_i c p heq
        obtain ⟨⟨q, hpq⟩, hge⟩ := stopResult_pos hpf hprev heq
        obtain ⟨g0, hg0, hdisj⟩ := hpt
        refine ⟨?_, ?_, ?_, Or.inr ⟨q, hpq⟩⟩
        · refine forall_mem_updateAt hmono ?_
          intro g hg
          rw [hg0] at hg
          cases hg
          show List.Chain' _ (g0.pos ++ [p])
          rw [List.chain'_append]
          refine ⟨hmono g0 (List.getElem?_mem hg0), List.chain'_singleton p, ?_⟩
          intro x hx y hy
          simp only [List.head?_cons, Option.mem_def, Option.some.injEq] at hy
          subst hy
          rcases hdisj with ⟨hnil, -⟩ | ⟨b, hprevb, hlastb⟩
          · rw [hnil] at hx
            cases hx
          · rw [hlastb] at hx
            cases hx
            exact hge b hprevb
        · intro _
          refine ⟨hic, hskip, by simp [updateAt_length, hlen1], ?_⟩
          refine ⟨{ g0 with colors := g0.colors ++ [c], pos := g0.pos ++ [p] }, ?_, ?_⟩
          · rw [getElem?_updateAt_self, hg0]
            rfl
          · refine Or.inr ⟨q, hpq, ?_⟩
            show (g0.pos ++ [p]).getLast? = some (F32.fin q)
            rw [List.getLast?_concat, hpq]
        · intro h
          rw [hinside] at h
          cases h

theorem foldl_inv {pc : String → Option Color} {pf : String → Option F32}
    {target : Option String} (hpf : offsetsFinite pf) :
    ∀ (es : List Event) (st : ParseState) (ic : Bool),
      flatEvents ic es = true → stInv st ic →
      ∀ g ∈ (es.foldl (parseStep pc pf target) st).res, monotonePos g := by
  intro es
  induction es with
  | nil =>
    intro st ic _ hinv
    exact hinv.1
  | cons e es ih =>
    intro st ic hflat hinv
    obtain ⟨ic', hflat', hinv'⟩ := parseStep_inv hpf hflat hinv
    exact ih (parseStep pc pf target st e) ic' hflat' hinv'

/-! ### C1 (amended): monotone emitted positions -/

/-- C1 (amended): for every event stream without nested gradient openings
and whose parsed offsets are all finite, every record produced by
`parse_svg` has non-decreasing positions.  (The original claim is refuted
by `c1_counterexample`: a non-finite offset resets the position to 0,
which can lie below the running maximum.) -/
theorem c1_positions_monotone (pc : String → Option Color)
    (pf : String → Option F32) (events : List Event) (target : Option String)
    (hpf : offsetsFinite pf) (hflat : flatEvents false events = true) :
    ∀ g ∈ parse_svg pc pf events target, monotonePos g :=
  foldl_inv hpf events initState false hflat initState_inv

/-- C1 witness: the amended theorem applied to a concrete finite-offset
stream. -/
theorem c1_witness :
    monotonePos ⟨some "w", [blackColor, blackColor],
      [F32.fin 0, F32.fin (mkRat 7 10)], true⟩ := by
  have hpf : offsetsFinite pfFin := by
    intro s v h
    unfold pfFin at h
    split_ifs at h <;> cases h <;> rfl
  exact c1_positions_monotone pcFix pfFin
    [ .gradient .tStart (some "w"), .stop { offset := some "0" },
      .stop { offset := some "0.7" }, .gradient .tEnd none ] none
    hpf (by decide) _ (by decide)

/-! ### C9: paired colors and positions; in-bounds normalizer accesses -/

theorem parseStep_lens {pc : String → Option Color} {pf : String → Option F32}
    {target : Option String} {st : ParseState} {e : Event}
    (h : ∀ g ∈ st.res, g.colors.length = g.pos.length) :
    ∀ g ∈ (parseStep pc pf target st e).res, g.colors.length = g.pos.length := by
  cases e with
  | other => exact h
  | gradient t id =>
    cases t with
    | tEmpty => exact h
    | tEnd => exact h
    | tStart =>
      simp only [parseStep]
      split
      · exact h
      · intro g hg
        rcases List.mem_append.mp hg with h' | h'
        · exact h g h'
        · rw [List.mem_singleton] at h'
          subst h'
          rfl
  | stop attrs =>
    simp only [parseStep]
    split
    · exact h
    · split
      · exact forall_mem_updateAt h (fun g hg => h g (List.getElem?_mem hg))
      · refine forall_mem_updateAt h ?_
        intro g hg
        have := h g (List.getElem?_mem hg)
        simp [this]

theorem foldl_lens {pc : String → Option Color} {pf : String → Option F32}
    {target : Option String} :
    ∀ (es : List Event) (st : ParseState),
      (∀ g ∈ st.res, g.colors.length = g.pos.length) →
      ∀ g ∈ (es.foldl (parseStep pc pf target) st).res,
        g.colors.length = g.pos.length := by
  intro es
  induction es with
  | nil => intro st h; exact h
  | cons e es ih =>
    intro st h
    exact ih (parseStep pc pf target st e) (parseStep_lens h)

/-- With paired lists, every index access of `gradient_builder` is in
range and the builder succeeds on a valid non-empty record. -/
theorem gradient_builder_isSome {g : SvgGradient}
    (hlen : g.colors.length = g.pos.length)
    (hv : g.valid = true) (hne : g.colors ≠ []) :
    (gradient_builder g).isSome = true := by
  obtain ⟨id, colors, pos, valid⟩ := g
  simp only at hlen hv hne
  subst hv
  cases colors with
  | nil => exact absurd rfl hne
  | cons c0 ctl =>
    cases pos with
    | nil => simp at hlen
    | cons p0 ptl =>
      have hlen' : ctl.length = ptl.length := by simpa using hlen
      have hplt : ctl.length < (p0 :: ptl).length := by
        simp only [List.length_cons, hlen']
        omega
      obtain ⟨pl, hpl⟩ : ∃ pl, (p0 :: ptl)[ctl.length]? = some pl :=
        ⟨_, List.getElem?_eq_getElem hplt⟩
      obtain ⟨cl, hcl⟩ : ∃ cl, (c0 :: ctl).getLast? = some cl := by
        rw [List.getLast?_eq_getElem?]
        exact ⟨_, List.getElem?_eq_getElem (by simp)⟩
      cases hp0 : F32.fgt p0 (F32.fin 0) with
      | true =>
        simp [gradient_builder, hp0, hpl, hcl]
        split <;> rfl
      | false =>
        simp [gradient_builder, hp0, hpl, hcl]
        split <;> rfl

/-- C9: every record returned by `parse_svg` stores colors and positions
in pairs (`colors.len() == pos.len()`), and under this invariant the
accesses `pos[0]`, `pos[last]`, `colors[last]` of `gradient_builder` are
all in range: the builder returns a value (instead of panicking) whenever
the validity/emptiness guard passes. -/
theorem c9_paired_stops_builder_in_bounds (pc : String → Option Color)
    (pf : String → Option F32) (events : List Event) (target : Option String)
    (g : SvgGradient) (hg : g ∈ parse_svg pc pf events target) :
    g.colors.length = g.pos.length ∧
    (g.valid = true → g.colors ≠ [] → (gradient_builder g).isSome = true) := by
  have hlen := foldl_lens events initState (by intro g hg; cases hg) g hg
  exact ⟨hlen, fun hv hne => gradient_builder_isSome hlen hv hne⟩

/-- C9 witness at a concrete extracted record. -/
theorem c9_witness :
    (⟨some "w", [blackColor], [F32.fin 0], true⟩ : SvgGradient).colors.length =
        (⟨some "w", [blackColor], [F32.fin 0], true⟩ : SvgGradient).pos.length ∧
    ((⟨some "w", [blackColor], [F32.fin 0], true⟩ : SvgGradient).valid = true →
      (⟨some "w", [blackColor], [F32.fin 0], true⟩ : SvgGradient).colors ≠ [] →
      (gradient_builder ⟨some "w", [blackColor], [F32.fin 0], true⟩).isSome = true) :=
  c9_paired_stops_builder_in_bounds pcFix pfFix
    [ .gradient .tStart (some "w"), .stop { offset := some "0" },
      .gradient .tEnd none ] none
    ⟨some "w", [blackColor], [F32.fin 0], true⟩ (by decide)

/-! ### C2 (amended): boundary padding -/

/-- C2 (amended): for a valid, non-empty record whose first position is
at least 0.0 and whose last position is at most 1.0, normalization makes
the first position exactly 0.0 and the last exactly 1.0, padding by
cloning the boundary stop's color (the first/last colors are unchanged).
(The original claim — boundaries pinned for EVERY valid record — is
refuted by `c2_counterexample`: a record whose positions exceed 1 keeps
its out-of-range last position.) -/
theorem c2_normalize_pads_boundaries (g : SvgGradient) (p0 plast : F32)
    (hv : g.valid = true) (hlen : g.pos.length = g.colors.length)
    (hhead : g.pos.head? = some p0) (h0 : F32.fle (F32.fin 0) p0 = true)
    (hlast : g.pos.getLast? = some plast) (h1 : F32.fle plast (F32.fin 1) = true) :
    ∃ cs ps, gradient_builder g = some (cs, ps) ∧
      ps.head? = some (F32.fin 0) ∧ ps.getLast? = some (F32.fin 1) ∧
      cs.head? = g.colors.head? ∧ cs.getLast? = g.colors.getLast? := by
  obtain ⟨id, colors, pos, valid⟩ := g
  simp only at hv hlen hhead hlast
  subst hv
  cases pos with
  | nil => cases hhead
  | cons q0 ptl =>
    have hq0 : q0 = p0 := by simpa using hhead
    subst hq0
    cases colors with
    | nil => simp at hlen
    | cons c0 ctl =>
      have hlen' : ctl.length = ptl.length := by
        simpa using hlen.symm
      have hpl : (q0 :: ptl)[ctl.length]? = some plast := by
        rw [List.getLast?_eq_getElem?] at hlast
        simpa [hlen'] using hlast
      obtain ⟨cl, hcl⟩ : ∃ cl, (c0 :: ctl).getLast? = some cl := by
        rw [List.getLast?_eq_getElem?]
        exact ⟨_, List.getElem?_eq_getElem (by simp)⟩
      cases hp0 : F32.fgt q0 (F32.fin 0) with
      | true =>
        cases hp1 : F32.flt plast (F32.fin 1) with
        | true =>
          refine ⟨c0 :: c0 :: (ctl ++ [cl]), F32.fin 0 :: q0 :: (ptl ++ [F32.fin 1]),
            ?_, rfl, ?_, rfl, ?_⟩
          · simp [gradient_builder, hp0, hpl, hcl, hp1]
          · exact List.getLast?_concat (F32.fin 0 :: q0 :: ptl)
          · rw [hcl]
            exact List.getLast?_concat (c0 :: c0 :: ctl)
        | false =>
          have hpl1 : plast = F32.fin 1 := eq_fin_one_of_fle_of_not_flt h1 hp1
          subst hpl1
          refine ⟨c0 :: c0 :: ctl, F32.fin 0 :: q0 :: ptl, ?_, rfl, ?_, rfl, ?_⟩
          · simp [gradient_builder, hp0, hpl, hcl, hp1]
          · rw [List.getLast?_cons_cons]
            exact hlast
          · rw [List.getLast?_cons_cons]
      | false =>
        have hq : q0 = F32.fin 0 := eq_fin_zero_of_fle_of_not_fgt h0 hp0
        subst hq
        cases hp1 : F32.flt plast (F32.fin 1) with
        | true =>
          refine ⟨c0 :: (ctl ++ [cl]), F32.fin 0 :: (ptl ++ [F32.fin 1]),
            ?_, rfl, ?_, rfl, ?_⟩
          · simp [gradient_builder, hp0, hpl, hcl, hp1]
          · exact List.getLast?_concat (F32.fin 0 :: ptl)
          · rw [hcl]
            exact List.getLast?_concat (c0 :: ctl)
        | false =>
          have hpl1 : plast = F32.fin 1 := eq_fin_one_of_fle_of_not_flt h1 hp1
          subst hpl1
          exact ⟨c0 :: ctl, F32.fin 0 :: ptl, by simp [gradient_builder, hp0, hpl, hcl, hp1],
            rfl, hlast, rfl, rfl⟩

/-- C2 witness: a record with one stop at position 1/2 is padded on both
sides. -/
theorem c2_witness :
    ∃ cs ps,
      gradient_builder ⟨none, [goldColor], [F32.fin (mkRat 1 2)], true⟩ =
        some (cs, ps) ∧
      ps.head? = some (F32.fin 0) ∧ ps.getLast? = some (F32.fin 1) ∧
      cs.head? = ([goldColor] : List Color).head? ∧
      cs.getLast? = ([goldColor] : List Color).getLast? :=
  c2_normalize_pads_boundaries ⟨none, [goldColor], [F32.fin (mkRat 1 2)], true⟩
    (F32.fin (mkRat 1 2)) (F32.fin (mkRat 1 2))
    rfl rfl rfl (by decide) rfl (by decide)

/-! ### C3 (amended): stop-color / stop-opacity resolution priority -/

/-- C3 (amended): a `stop-color` entry in the `style` attribute OVERRIDES
a present explicit `stop-color` attribute (the code parses the attribute
first and then unconditionally overwrites it from the style list); the
explicit attribute is used only when the style list has no color entry,
and opaque black only when both are absent.  Opacity follows the same
(style-over-attribute) priority.  Style keys are matched
case-insensitively by `parse_styles`.  (The claimed attribute-first
priority is refuted by `c3_counterexample`.) -/
theorem c3_style_overrides_attribute (pc : String → Option Color)
    (pf : String → Option F32) (prev : F32) (st s1 o1 o2 : String)
    (c1 : Color) (v1 v2 : F32)
    (hpc1 : pc s1 = some c1)
    (ho1 : parse_percent_or_float pf o1 = some v1)
    (ho2 : parse_percent_or_float pf o2 = some v2) :
    (∀ s2 c2, pc s2 = some c2 → parse_styles st = (some s2, none) →
      stopResult pc pf { stop_color := some s1, style := some st } prev =
        some (c2, if prev.isFinite = true then F32.fmax prev prev else F32.fin 0)) ∧
    (parse_styles st = (none, none) →
      stopResult pc pf { stop_color := some s1, style := some st } prev =
        some (c1, if prev.isFinite = true then F32.fmax prev prev else F32.fin 0)) ∧
    (stopResult pc pf {} prev =
      some (blackColor, if prev.isFinite = true then F32.fmax prev prev else F32.fin 0)) ∧
    (parse_styles st = (none, some o2) →
      stopResult pc pf
          { stop_color := some s1, stop_opacity := some o1, style := some st } prev =
        some (Color.new c1.r c1.g c1.b (F32.fclamp01 v2),
          if prev.isFinite = true then F32.fmax prev prev else F32.fin 0)) := by
  refine ⟨?_, ?_, ?_, ?_⟩
  · intro s2 c2 hpc2 hst
    simp [stopResult, liftParse, styleApply, hst, hpc1, hpc2]
  · intro hst
    simp [stopResult, liftParse, styleApply, hst, hpc1]
  · simp [stopResult, liftParse, blackColor]
  · intro hst
    simp [stopResult, liftParse, styleApply, hst, hpc1, ho1, ho2]

/-- C3 witness: with both `stop-color="red"` and `style="stop-color:lime"`
present, the resolved color is lime. -/
theorem c3_witness :
    stopResult pcFix pfFix
        { stop_color := some "red", style := some "stop-color:lime" } F32.ninf =
      some (limeColor, F32.fin 0) := by
  have h := c3_style_overrides_attribute pcFix pfFix F32.ninf "stop-color:lime"
    "red" "0.5" "0.7" redColor (F32.fin (mkRat 1 2)) (F32.fin (mkRat 7 10))
    (by decide) (by decide) (by decide)
  exact h.1 "lime" limeColor (by decide) (by decide)

/-! ### C4 (amended): failed stops are dropped, accumulation continues -/

/-- C4 (amended): while a record is active, a stop event whose attributes
all parse appends exactly one stop to the record (whether or not the
record is already poisoned), but a stop with an unparsable attribute
marks the record invalid WITHOUT occupying a slot; later stop events keep
accumulating.  So `stops.len()` counts only the stop events whose
attributes parsed, not all stop events (the original equality is refuted
by `c4_counterexample`). -/
theorem c4_failed_stop_dropped (pc : String → Option Color)
    (pf : String → Option F32) (target : Option String)
    (st : ParseState) (attrs : StopAttrs)
    (hin : st.inside = true) (hskip : st.skip = false)
    (hlt : st.index < st.res.length) :
    (stopResult pc pf attrs st.prev_pos = none →
      ((parseStep pc pf target st (.stop attrs)).res[st.index]?).map
          (fun g => g.colors.length) =
        (st.res[st.index]?).map (fun g => g.colors.length) ∧
      ((parseStep pc pf target st (.stop attrs)).res[st.index]?).map
          (fun g => g.valid) = some false) ∧
    (∀ c p, stopResult pc pf attrs st.prev_pos = some (c, p) →
      ((parseStep pc pf target st (.stop attrs)).res[st.index]?).map
          (fun g => g.colors.length) =
        (st.res[st.index]?).map (fun g => g.colors.length + 1) ∧
      ((parseStep pc pf target st (.stop attrs)).res[st.index]?).map
          (fun g => g.valid) =
        (st.res[st.index]?).map (fun g => g.valid)) := by
  obtain ⟨g0, hg0⟩ : ∃ g0, st.res[st.index]? = some g0 :=
    ⟨_, List.getElem?_eq_getElem hlt⟩
  have hne : st.res.isEmpty = false := by
    cases hres : st.res with
    | nil => rw [hres] at hlt; simp at hlt
    | cons a l => rfl
  constructor
  · intro hnone
    simp only [parseStep, hin, hskip, hne, Bool.not_true, Bool.false_or, Bool.or_self,
      Bool.false_eq_true, if_false, hnone]
    rw [getElem?_updateAt_self, hg0]
    simp [hg0]
  · intro c p hsome
    simp only [parseStep, hin, hskip, hne, Bool.not_true, Bool.false_or, Bool.or_self,
      Bool.false_eq_true, if_false, hsome]
    rw [getElem?_updateAt_self, hg0]
    simp [hg0]

/-- C4 witness: a failing stop leaves the slot count unchanged and
invalidates the concrete one-record state. -/
theorem c4_witness :
    ((parseStep pcFix pfFix none ⟨[⟨none, [], [], true⟩], 0, F32.ninf, true, false⟩
        (.stop { stop_color := some "bad" })).res[0]?).map
        (fun g => g.colors.length) =
      (([⟨none, [], [], true⟩] : List SvgGradient)[0]?).map
        (fun g => g.colors.length) ∧
    ((parseStep pcFix pfFix none ⟨[⟨none, [], [], true⟩], 0, F32.ninf, true, false⟩
        (.stop { stop_color := some "bad" })).res[0]?).map
        (fun g => g.valid) = some false :=
  (c4_failed_stop_dropped pcFix pfFix none
    ⟨[⟨none, [], [], true⟩], 0, F32.ninf, true, false⟩
    { stop_color := some "bad" } rfl rfl (by decide)).1 (by decide)

/-! ### C10 (amended): the splitter is panic-free on ASCII input only -/

theorem utf8Len_ascii {l : List Char} (h : ∀ c ∈ l, c.utf8Size = 1) :
    utf8Len l = l.length := by
  induction l with
  | nil => rfl
  | cons c cs ih =>
    have hstep : utf8Len (c :: cs) = c.utf8Size + utf8Len cs := by
      simp [utf8Len]
    rw [hstep, h c (List.mem_cons_self c cs),
      ih (fun x hx => h x (List.mem_cons_of_mem c hx))]
    simp [Nat.add_comm]

theorem dropBytes_ascii {l : List Char} (h : ∀ c ∈ l, c.utf8Size = 1) :
    ∀ {n : Nat}, n ≤ l.length → dropBytes l n = some (l.drop n) := by
  induction l with
  | nil =>
    intro n hn
    cases n with
    | zero => rfl
    | succ m => exact absurd hn (by simp)
  | cons c cs ih =>
    intro n hn
    cases n with
    | zero => rfl
    | succ m =>
      have hc : c.utf8Size = 1 := h c (List.mem_cons_self c cs)
      simp only [dropBytes, hc]
      rw [if_neg (by omega)]
      simpa using ih (fun x hx => h x (List.mem_cons_of_mem c hx))
        (by simpa using hn)

theorem takeBytes_ascii {l : List Char} (h : ∀ c ∈ l, c.utf8Size = 1) :
    ∀ {n : Nat}, n ≤ l.length → takeBytes l n = some (l.take n) := by
  induction l with
  | nil =>
    intro n hn
    cases n with
    | zero => rfl
    | succ m => exact absurd hn (by simp)
  | cons c cs ih =>
    intro n hn
    cases n with
    | zero => rfl
    | succ m =>
      have hc : c.utf8Size = 1 := h c (List.mem_cons_self c cs)
      simp only [takeBytes, hc]
      rw [if_neg (by omega)]
      rw [show m + 1 - 1 = m by omega,
        ih (fun x hx => h x (List.mem_cons_of_mem c hx)) (by simpa using hn)]
      rfl

theorem byteSlice_ascii {l : List Char} (h : ∀ c ∈ l, c.utf8Size = 1)
    {start stop : Nat} (h1 : start ≤ stop) (h2 : stop ≤ l.length) :
    byteSlice l start stop = some ((l.drop start).take (stop - start)) := by
  unfold byteSlice
  rw [if_neg (by omega), dropBytes_ascii h (le_trans h1 h2)]
  show takeBytes (l.drop start) (stop - start) = _
  exact takeBytes_ascii (fun c hc => h c (List.mem_of_mem_drop hc))
    (by simp only [List.length_drop]; omega)

theorem parse_colors_go_no_crash {pc : String → Option Color}
    {full : List Char} (h : ∀ c ∈ full, c.utf8Size = 1) :
    ∀ (rest : List Char) (i start : Nat) (inside : Bool) (acc : List Color),
      i + rest.length = full.length → start ≤ i →
      parse_colors_go pc full rest i start inside acc ≠ PResult.crash := by
  intro rest
  induction rest with
  | nil =>
    intro i start inside acc hi hs
    simp only [List.length_nil, Nat.add_zero] at hi
    simp only [parse_colors_go]
    simp only [utf8Len_ascii h, byteSlice_ascii h (by omega : start ≤ full.length) (le_refl _)]
    cases hpc : pc (String.mk ((full.drop start).take (full.length - start))) <;>
      simp [hpc]
  | cons c rest ih =>
    intro i start inside acc hi hs
    have hi' : i + 1 + rest.length = full.length := by
      simp only [List.length_cons] at hi
      omega
    have hilt : i ≤ full.length := by
      simp only [List.length_cons] at hi
      omega
    simp only [parse_colors_go]
    split_ifs with hcomma hopen hclose
    · simp only [byteSlice_ascii h hs hilt]
      cases hpc : pc (String.mk ((full.drop start).take (i - start))) with
      | none => simp [hpc]
      | some col =>
        simp only [hpc]
        exact ih (i + 1) (i + 1) inside (acc ++ [col]) hi' (le_refl _)
    · exact ih (i + 1) start true acc hi' (by omega)
    · exact ih (i + 1) start false acc hi' (by omega)
    · exact ih (i + 1) start inside acc hi' (by omega)

/-- C10 (amended): on ASCII input — where the character indices produced
by `chars().enumerate()` coincide with byte indices — `parse_colors`
always returns `Ok` or `Err` and never panics, and slicing stays on
character boundaries.  (On non-ASCII input the char/byte index mixup can
slice inside a character and panic, see `c10_counterexample`.) -/
theorem c10_ascii_no_crash (pc : String → Option Color) (s : String)
    (h : ∀ c ∈ s.data, c.utf8Size = 1) :
    parse_colors pc s ≠ PResult.crash :=
  parse_colors_go_no_crash h s.data 0 0 false [] (by simp) (le_refl 0)

/-- C10 witness on a concrete ASCII input. -/
theorem c10_witness : parse_colors pcFix "red,lime" ≠ PResult.crash :=
  c10_ascii_no_crash pcFix "red,lime" (by decide)

end GradientRs
